import Mathlib

/-!
Verification of the gocamelpack file-transaction engine and progress bar.

The development is a shallow embedding of the Go sources:
* `files/transaction.go` — `Operation` (copy / move variants), per-operation
  `Execute` and `Rollback`, `TransactionError`;
* `files/transaction_manager.go` — `FileTransaction`: `Validate`,
  `ExecuteWithProgress`, `Rollback`, `Completed`;
* `files/root.go` — `Files.ValidateCopyArgs`, `Files.Copy`, `Files.IsFile`;
* the `progress` package — `ProgressState` and `ProgressBar`.

The filesystem the operations act on is modelled as a partial map from
paths to file contents (`String → Option String`; every mapped path is a
regular file).  OS-level mutation failures that the Go code meets through
`os.Remove` / `os.Rename` (e.g. permission denied) are modelled by a set of
`locked` paths on which those primitives fail with a non-`IsNotExist`
error; `ENOENT` is modelled by `OsError.notExist`.  Calls the engine makes
on its `progress.ProgressReporter` are recorded as a trace of
`ProgressEvent`s, and the operations a `Rollback` call attempts are
recorded in an attempt log, mirroring the ordered observation log the
spec's test-double scenario describes.
-/

namespace Gocamelpack

/-- The filesystem model: `files p = some c` means path `p` is a regular
file with contents `c`; `locked` lists paths on which destructive
primitives (`os.Remove`, `os.Rename`, exclusive create) fail with a
permission-style (non-`IsNotExist`) error. -/
structure FsState where
  files : String → Option String
  locked : List String

/-- Pointwise update of the file map (used for create, overwrite and erase). -/
def setFile (f : String → Option String) (p : String) (c : Option String) :
    String → Option String :=
  fun q => if q = p then c else f q

/-- Errors of the modelled OS primitives; `notExist` is the class that
`os.IsNotExist` recognises. -/
inductive OsError
  | notExist
  | permission
deriving DecidableEq, Repr

/-- `os.Remove p`: fails with a permission-style error on a locked path,
with `notExist` when the path is absent, otherwise erases it. -/
def osRemove (fs : FsState) (p : String) : Except OsError FsState :=
  if p ∈ fs.locked then .error .permission
  else
    match fs.files p with
    | none => .error .notExist
    | some _ => .ok { fs with files := setFile fs.files p none }

/-- `os.Rename src dst`: fails with a permission-style error when either
path is locked, with `notExist` when the source is absent, and otherwise
moves the file, overwriting any existing destination (POSIX rename). -/
def osRename (fs : FsState) (src dst : String) : Except OsError FsState :=
  if src ∈ fs.locked ∨ dst ∈ fs.locked then .error .permission
  else
    match fs.files src with
    | none => .error .notExist
    | some c => .ok { fs with files := setFile (setFile fs.files src none) dst (some c) }

/-- `Files.IsFile`: the path names an existing regular file (every mapped
path in the model is a regular file). -/
def IsFile (fs : FsState) (p : String) : Bool :=
  (fs.files p).isSome

/-- `Files.ValidateCopyArgs`: non-empty source and destination, source a
regular file, destination absent.  (The Go branch for a stat error other
than not-exist is outside the model.)  Returns the error message, `none`
on success. -/
def ValidateCopyArgs (fs : FsState) (src dst : String) : Option String :=
  if src = "" ∨ dst = "" then some "source and destination must be provided"
  else if ¬ IsFile fs src then some ("source " ++ src ++ " is not a regular file")
  else if (fs.files dst).isSome then some ("destination " ++ dst ++ " already exists")
  else none

/-- `Files.Copy`: validates with `ValidateCopyArgs`, then creates the
destination exclusively (failing on a locked destination) with the
source's contents. -/
def Files.Copy (fs : FsState) (src dst : String) : Except String FsState :=
  match ValidateCopyArgs fs src dst with
  | some e => .error e
  | none =>
    match fs.files src with
    | none => .error ("open " ++ src ++ " failed")
    | some c =>
      if dst ∈ fs.locked then .error ("create " ++ dst ++ " failed")
      else .ok { fs with files := setFile fs.files dst (some c) }

/-- `Operation`: the tagged-variant embedding of the Go
`CopyOperation` / `MoveOperation` implementations of the `Operation`
interface, carrying source and destination. -/
inductive Operation
  | copy (src dst : String)
  | move (src dst : String)
deriving DecidableEq, Repr

namespace Operation

/-- `Operation.Source()`. -/
def src : Operation → String
  | .copy s _ => s
  | .move s _ => s

/-- `Operation.Destination()`. -/
def dst : Operation → String
  | .copy _ d => d
  | .move _ d => d

/-- `OperationType.String()`. -/
def typeString : Operation → String
  | .copy _ _ => "copy"
  | .move _ _ => "move"

/-- `Operation.Execute(fs)`: a copy delegates to `Files.Copy`; a move
ensures the destination directory (a no-op in the model) and calls
`os.Rename`. -/
def Execute (op : Operation) (fs : FsState) : Except String FsState :=
  match op with
  | .copy s d => Files.Copy fs s d
  | .move s d =>
    match osRename fs s d with
    | .ok fs' => .ok fs'
    | .error _ => .error ("move " ++ s ++ " to " ++ d ++ " failed")

/-- `Operation.Rollback(fs)`: a copy removes its destination, treating a
missing destination as success; a move renames the destination back to
the source, treating a missing destination as success.  Any other
primitive failure is returned as an error. -/
def Rollback (op : Operation) (fs : FsState) : Except String FsState :=
  match op with
  | .copy _ d =>
    match osRemove fs d with
    | .ok fs' => .ok fs'
    | .error e =>
      if e = .notExist then .ok fs
      else .error ("failed to remove copied file " ++ d)
  | .move s d =>
    match osRename fs d s with
    | .ok fs' => .ok fs'
    | .error e =>
      if e = .notExist then .ok fs
      else .error ("failed to restore moved file " ++ d ++ " to " ++ s)

end Operation

/-- `TransactionError`: phase (`"planning"`, `"execution"` or
`"rollback"`), the operation that failed (absent for aggregate rollback
errors) and the underlying error message. -/
structure TransactionError where
  phase : String
  operation : Option Operation
  err : String
deriving DecidableEq, Repr

/-- One call the engine makes on its `progress.ProgressReporter`.
`setError` is included so that "the engine never calls `SetError`" is a
statement about the trace. -/
inductive ProgressEvent
  | setTotal (n : Nat)
  | setCurrent (n : Nat)
  | setMessage (s : String)
  | finish
  | setError
deriving DecidableEq, Repr

/-- The mutable part of a `FileTransaction` that `Execute`/`Rollback`
thread: the filesystem and the `completed` list. -/
structure TxState where
  fs : FsState
  completed : List Operation

/-- The loop body of `FileTransaction.Rollback`, already fed the reversed
`completed` list: attempts every operation's `Rollback`, threading the
filesystem, collecting the error messages of failed steps, and recording
each attempted operation in invocation order. -/
def rollbackSteps (fs : FsState) : List Operation → FsState × List String × List Operation
  | [] => (fs, [], [])
  | op :: rest =>
    match op.Rollback fs with
    | .ok fs' =>
      let (fs'', errs, log) := rollbackSteps fs' rest
      (fs'', errs, op :: log)
    | .error e =>
      let (fs'', errs, log) := rollbackSteps fs rest
      (fs'', ("failed to rollback " ++ op.typeString ++ " " ++ op.src ++ "->" ++ op.dst
                ++ ": " ++ e) :: errs,
       op :: log)

/-- The aggregate message `FileTransaction.Rollback` builds from the
collected rollback errors. -/
def aggregateMsg (errs : List String) : String :=
  "rollback errors: " ++ String.intercalate "; " errs

/-- `FileTransaction.Rollback`: iterates `completed` in reverse order,
attempting every operation's rollback, clears `completed`, and returns a
rollback-phase `TransactionError` aggregating the failures when any step
failed.  The third component is the attempt log (the operations whose
`Rollback` was invoked, in invocation order). -/
def txRollback (st : TxState) : Option TransactionError × TxState × List Operation :=
  let (fs', errs, log) := rollbackSteps st.fs st.completed.reverse
  (if errs = [] then none
   else some ⟨"rollback", none, aggregateMsg errs⟩,
   ⟨fs', []⟩, log)

/-- The loop of `FileTransaction.ExecuteWithProgress`: `idx` operations
have already completed (`completed`, in order), `rest` remain.  Emits
`SetMessage` before each execute and `SetCurrent (idx+1)` after each
success; on a failure rolls back the completed operations and returns an
execution-phase error (combining the rollback error when rollback also
failed); `Finish` only after all operations succeed. -/
def execOps (fs : FsState) (completed : List Operation) (idx : Nat) :
    List Operation → Option TransactionError × TxState × List ProgressEvent
  | [] => (none, ⟨fs, completed⟩, [.finish])
  | op :: rest =>
    let ev := ProgressEvent.setMessage (op.typeString ++ " " ++ op.src)
    match op.Execute fs with
    | .error e =>
      let (rbErr, st', _) := txRollback ⟨fs, completed⟩
      match rbErr with
      | some re =>
        (some ⟨"execution", some op,
               "execution failed: " ++ e ++ "; rollback also failed: " ++ re.err⟩,
         st', [ev])
      | none => (some ⟨"execution", some op, e⟩, st', [ev])
    | .ok fs' =>
      let (r, st', evs) := execOps fs' (completed ++ [op]) (idx + 1) rest
      (r, st', ev :: .setCurrent (idx + 1) :: evs)

/-- `FileTransaction.ExecuteWithProgress`: resets `completed`, announces
the total and a current of `0`, then runs the loop. -/
def ExecuteWithProgress (ops : List Operation) (fs0 : FsState) :
    Option TransactionError × TxState × List ProgressEvent :=
  let (r, st, evs) := execOps fs0 [] 0 ops
  (r, st, .setTotal ops.length :: .setCurrent 0 :: evs)

/-- The per-operation check `FileTransaction.Validate` applies: with
overwrite disabled, `Files.ValidateCopyArgs`; with overwrite enabled,
non-empty source/destination and the source a regular file (destination
absence not required). -/
def opCheck (fs : FsState) (overwrite : Bool) (op : Operation) : Option String :=
  if overwrite then
    if op.src = "" ∨ op.dst = "" then some "source and destination must be provided"
    else if ¬ IsFile fs op.src then
      some ("source " ++ op.src ++ " is not a regular file")
    else none
  else ValidateCopyArgs fs op.src op.dst

/-- `FileTransaction.Validate`: checks planned operations in insertion
order, returning a planning-phase `TransactionError` for the first
operation that fails its check.  It takes no transaction state and
returns only the error: in the model it is read-only by construction. -/
def Validate (fs : FsState) (overwrite : Bool) : List Operation → Option TransactionError
  | [] => none
  | op :: rest =>
    match opCheck fs overwrite op with
    | some e => some ⟨"planning", some op, e⟩
    | none => Validate fs overwrite rest

/-- The outcome of executing a list of operations in sequence without any
rollback: either every `Execute` succeeds, or `pre` lists the operations
that succeeded (in order) before `op` failed with message `e` in
filesystem state `fsAtFail`. -/
inductive ExecOutcome
  | success (fsN : FsState)
  | failure (pre : List Operation) (op : Operation) (e : String) (fsAtFail : FsState)

/-- Sequential execution of a plan, recording where it first fails. -/
def runOps (fs : FsState) : List Operation → ExecOutcome
  | [] => .success fs
  | op :: rest =>
    match op.Execute fs with
    | .error e => .failure [] op e fs
    | .ok fs' =>
      match runOps fs' rest with
      | .success fsN => .success fsN
      | .failure pre o e ff => .failure (op :: pre) o e ff

/-- `progress.ProgressState`: Go `int` fields are modelled as `Int`
(callers may pass negative arguments); `actualCurrent` tracks the
pre-clamping current, as in the source. -/
structure ProgressState where
  current : Int
  total : Int
  actualCurrent : Int
  message : String
deriving DecidableEq, Repr

/-- `progress.NewProgressState`: the zero state. -/
def NewProgressState : ProgressState :=
  ⟨0, 0, 0, ""⟩

namespace ProgressState

/-- `ProgressState.SetTotal`: a negative total is stored as `0`; the
current value is not re-clamped. -/
def SetTotal (p : ProgressState) (total : Int) : ProgressState :=
  { p with total := if total < 0 then 0 else total }

/-- `ProgressState.SetCurrent`: a negative current is stored as `0`;
`actualCurrent` keeps the un-clamped value and `current` is clamped to
`total` when `total` is positive. -/
def SetCurrent (p : ProgressState) (current : Int) : ProgressState :=
  let c := if current < 0 then 0 else current
  { p with
    actualCurrent := c,
    current := if c > p.total ∧ p.total > 0 then p.total else c }

/-- `ProgressState.IncrementBy`: a negative amount leaves the state
unchanged; otherwise delegates to `SetCurrent` on
`actualCurrent + amount`. -/
def IncrementBy (p : ProgressState) (amount : Int) : ProgressState :=
  if amount < 0 then p else p.SetCurrent (p.actualCurrent + amount)

/-- `ProgressState.Increment`. -/
def Increment (p : ProgressState) : ProgressState :=
  p.IncrementBy 1

/-- `ProgressState.SetMessage`. -/
def SetMessage (p : ProgressState) (message : String) : ProgressState :=
  { p with message := message }

/-- `ProgressState.IsComplete`. -/
def IsComplete (p : ProgressState) : Bool :=
  p.total > 0 && p.current ≥ p.total

end ProgressState

/-- One write the progress bar performs on its writer.  Rendering detail
(bar characters, width, percentages) is abstracted: what matters to the
claims is whether a call emits output at all and of which kind. -/
inductive BarOutput
  | display
  | finishLine
  | errorLine (msg : Option String)
deriving DecidableEq, Repr

/-- `progress.ProgressBar`: the embedded `ProgressState`, the `finished`
and `errored` flags, and the sequence of writes performed so far.
Rendering configuration (width, bar characters, message visibility) only
shapes the emitted text and is abstracted away. -/
structure ProgressBar where
  state : ProgressState
  finished : Bool
  errored : Bool
  out : List BarOutput
deriving DecidableEq, Repr

/-- `progress.NewProgressBar`: fresh state, not finished, not errored,
nothing written. -/
def NewProgressBar : ProgressBar :=
  ⟨NewProgressState, false, false, []⟩

namespace ProgressBar

/-- `ProgressBar.Finish`: a no-op when already finished; otherwise marks
finished and writes the final (saturated) line once. -/
def Finish (pb : ProgressBar) : ProgressBar :=
  if pb.finished then pb
  else { pb with finished := true, out := pb.out ++ [.finishLine] }

/-- `ProgressBar.SetError`: a no-op when already finished (finished state
wins); otherwise marks errored and finished and writes the error line,
including the error's message when present. -/
def SetError (pb : ProgressBar) (err : Option String) : ProgressBar :=
  if pb.finished then pb
  else { pb with errored := true, finished := true, out := pb.out ++ [.errorLine err] }

/-- `ProgressBar.SetTotal`: guarded no-op after `Finish`/`SetError`;
otherwise updates the state and displays. -/
def SetTotal (pb : ProgressBar) (total : Int) : ProgressBar :=
  if pb.errored || pb.finished then pb
  else { pb with state := pb.state.SetTotal total, out := pb.out ++ [.display] }

/-- `ProgressBar.SetCurrent`: guarded no-op after `Finish`/`SetError`;
otherwise updates the state and displays. -/
def SetCurrent (pb : ProgressBar) (current : Int) : ProgressBar :=
  if pb.errored || pb.finished then pb
  else { pb with state := pb.state.SetCurrent current, out := pb.out ++ [.display] }

/-- `ProgressBar.Increment`: guarded no-op after `Finish`/`SetError`. -/
def Increment (pb : ProgressBar) : ProgressBar :=
  if pb.errored || pb.finished then pb
  else { pb with state := pb.state.Increment, out := pb.out ++ [.display] }

/-- `ProgressBar.IncrementBy`: guarded no-op after `Finish`/`SetError`. -/
def IncrementBy (pb : ProgressBar) (amount : Int) : ProgressBar :=
  if pb.errored || pb.finished then pb
  else { pb with state := pb.state.IncrementBy amount, out := pb.out ++ [.display] }

/-- `ProgressBar.SetMessage`: guarded no-op after `Finish`/`SetError`. -/
def SetMessage (pb : ProgressBar) (message : String) : ProgressBar :=
  if pb.errored || pb.finished then pb
  else { pb with state := pb.state.SetMessage message, out := pb.out ++ [.display] }

end ProgressBar

/-- The non-negativity invariant of the progress state. -/
def ProgressState.Nonneg (p : ProgressState) : Prop :=
  0 ≤ p.current ∧ 0 ≤ p.total ∧ 0 ≤ p.actualCurrent

instance (p : ProgressState) : Decidable p.Nonneg := by
  unfold ProgressState.Nonneg; infer_instance

/-- C10: the progress state rejects negative inputs: `SetTotal` of a
negative total stores `0`, `SetCurrent` of a negative current stores `0`
(both in `current` and `actualCurrent`), `IncrementBy` of a negative
amount leaves the state unchanged, and non-negativity of
`current`/`total` (and `actualCurrent`) is preserved by every progress
operation. -/
theorem progress_nonneg_invariant (p : ProgressState) :
    (∀ t : Int, t < 0 → (p.SetTotal t).total = 0) ∧
    (∀ c : Int, c < 0 →
       (p.SetCurrent c).current = 0 ∧ (p.SetCurrent c).actualCurrent = 0) ∧
    (∀ a : Int, a < 0 → p.IncrementBy a = p) ∧
    (p.Nonneg → ∀ t c a : Int, ∀ m : String,
       (p.SetTotal t).Nonneg ∧ (p.SetCurrent c).Nonneg ∧
       (p.IncrementBy a).Nonneg ∧ p.Increment.Nonneg ∧ (p.SetMessage m).Nonneg) := by
  refine ⟨?_, ?_, ?_, ?_⟩
  · intro t ht
    simp [ProgressState.SetTotal]
    omega
  · intro c hc
    simp [ProgressState.SetCurrent]
    omega
  · intro a ha
    simp [ProgressState.IncrementBy, ha]
  · rintro ⟨h1, h2, h3⟩ t c a m
    refine ⟨?_, ?_, ?_, ?_, ?_⟩ <;>
      simp [ProgressState.SetTotal, ProgressState.SetCurrent,
        ProgressState.IncrementBy, ProgressState.Increment,
        ProgressState.SetMessage, ProgressState.Nonneg] <;>
      (try split_ifs) <;> (try simp) <;> omega

/-- C10 witness: the negative-input behaviours and invariant preservation
at a concrete state. -/
theorem progress_nonneg_invariant_witness :
    ((NewProgressState.SetTotal (-2)).total = 0) ∧
    ((NewProgressState.SetCurrent (-3)).current = 0) ∧
    (NewProgressState.IncrementBy (-1) = NewProgressState) ∧
    ((NewProgressState.SetCurrent 4).Nonneg) :=
  ⟨(progress_nonneg_invariant NewProgressState).1 (-2) (by decide),
   ((progress_nonneg_invariant NewProgressState).2.1 (-3) (by decide)).1,
   (progress_nonneg_invariant NewProgressState).2.2.1 (-1) (by decide),
   (((progress_nonneg_invariant NewProgressState).2.2.2 (by decide) 0 4 0 "").2.1)⟩

/-- C8 counterexample: setting the current value while the total is still
`0` and only then setting a positive total leaves `current` above
`total` — `SetCurrent 5` then `SetTotal 3` on a fresh state yields
`current = 5 > 3 = total`, so the clamping invariant does not hold
regardless of the order in which total and current are set. -/
theorem progress_clamp_order_counterexample :
    ((NewProgressState.SetCurrent 5).SetTotal 3).total > 0 ∧
    ((NewProgressState.SetCurrent 5).SetTotal 3).current >
      ((NewProgressState.SetCurrent 5).SetTotal 3).total := by
  decide

/-- C8 as amended: whenever a `SetCurrent`, `Increment` or
`IncrementBy` (with non-negative amount) call is made while the total is
positive, the resulting current does not exceed the total (out-of-range
values are clamped at that call).  `SetTotal` does not re-clamp an
already-stored current, so the bound is not guaranteed when the current
was set before the total (or the total is later lowered). -/
theorem progress_clamp_on_set (p : ProgressState) (h : 0 < p.total) :
    (∀ c : Int, (p.SetCurrent c).current ≤ (p.SetCurrent c).total) ∧
    (∀ a : Int, 0 ≤ a →
       (p.IncrementBy a).current ≤ (p.IncrementBy a).total) ∧
    p.Increment.current ≤ p.Increment.total := by
  have hset : ∀ c : Int, (p.SetCurrent c).current ≤ (p.SetCurrent c).total := by
    intro c
    simp [ProgressState.SetCurrent]
    split_ifs <;> omega
  refine ⟨hset, ?_, ?_⟩
  · intro a ha
    rw [ProgressState.IncrementBy, if_neg (by omega)]
    exact hset _
  · rw [ProgressState.Increment, ProgressState.IncrementBy, if_neg (by omega)]
    exact hset _

/-- C8 witness: the clamping bound at a concrete state with positive
total. -/
theorem progress_clamp_on_set_witness :
    ((NewProgressState.SetTotal 3).SetCurrent 7).current ≤
      ((NewProgressState.SetTotal 3).SetCurrent 7).total :=
  (progress_clamp_on_set (NewProgressState.SetTotal 3) (by decide)).1 7

/-- C9: `finished` and `errored` are terminal for the progress bar: after
`Finish`, every mutator (`SetTotal`, `SetCurrent`, `Increment`,
`IncrementBy`, `SetMessage`) returns the bar unchanged (state and output
alike), a second `Finish` is the identity (emits nothing), and
`SetError` after `Finish` is the identity and does not mark the bar
errored; likewise after `SetError`, every mutator, `Finish` and a second
`SetError` are the identity. -/
theorem progress_bar_terminal (pb : ProgressBar) (t c a : Int) (m : String)
    (e e' : Option String) :
    (pb.Finish.finished = true) ∧
    (pb.Finish.SetTotal t = pb.Finish) ∧
    (pb.Finish.SetCurrent c = pb.Finish) ∧
    (pb.Finish.Increment = pb.Finish) ∧
    (pb.Finish.IncrementBy a = pb.Finish) ∧
    (pb.Finish.SetMessage m = pb.Finish) ∧
    (pb.Finish.Finish = pb.Finish) ∧
    (pb.Finish.SetError e = pb.Finish) ∧
    ((pb.Finish.SetError e).errored = pb.errored) ∧
    (((pb.SetError e).SetTotal t = pb.SetError e) ∧
     ((pb.SetError e).SetCurrent c = pb.SetError e) ∧
     ((pb.SetError e).Increment = pb.SetError e) ∧
     ((pb.SetError e).IncrementBy a = pb.SetError e) ∧
     ((pb.SetError e).SetMessage m = pb.SetError e) ∧
     ((pb.SetError e).Finish = pb.SetError e) ∧
     ((pb.SetError e).SetError e' = pb.SetError e)) := by
  have hf : pb.Finish.finished = true := by
    unfold ProgressBar.Finish
    split <;> simp_all
  have hg : pb.Finish.errored = pb.errored := by
    unfold ProgressBar.Finish
    split <;> simp_all
  have he : (pb.SetError e).finished = true := by
    unfold ProgressBar.SetError
    split <;> simp_all
  have key : ∀ pb' : ProgressBar, pb'.finished = true →
      pb'.SetTotal t = pb' ∧ pb'.SetCurrent c = pb' ∧ pb'.Increment = pb' ∧
      pb'.IncrementBy a = pb' ∧ pb'.SetMessage m = pb' ∧ pb'.Finish = pb' ∧
      ∀ e'' : Option String, pb'.SetError e'' = pb' := by
    intro pb' h
    unfold ProgressBar.SetTotal ProgressBar.SetCurrent ProgressBar.Increment
      ProgressBar.IncrementBy ProgressBar.SetMessage ProgressBar.Finish
      ProgressBar.SetError
    simp [h]
  obtain ⟨k1, k2, k3, k4, k5, k6, k7⟩ := key pb.Finish hf
  obtain ⟨l1, l2, l3, l4, l5, l6, l7⟩ := key (pb.SetError e) he
  exact ⟨hf, k1, k2, k3, k4, k5, k6, k7 e, by rw [k7 e]; exact hg,
    l1, l2, l3, l4, l5, l6, l7 e'⟩

/-- C6: operation rollback is tolerant of a missing destination.  For a
copy, rollback deletes the destination when present and succeeds without
change when the destination is absent; for a move, rollback renames the
destination back to the source when present and succeeds without change
when the destination is absent; a permission-style failure of the
underlying primitive (a locked path) is returned as an error, not
swallowed. -/
theorem operation_rollback_tolerant (fs : FsState) (s d : String) :
    (d ∉ fs.locked → (fs.files d).isSome →
       (Operation.copy s d).Rollback fs =
         .ok { fs with files := setFile fs.files d none }) ∧
    (d ∉ fs.locked → fs.files d = none →
       (Operation.copy s d).Rollback fs = .ok fs) ∧
    (d ∈ fs.locked → ∃ msg, (Operation.copy s d).Rollback fs = .error msg) ∧
    (s ∉ fs.locked → d ∉ fs.locked → ∀ c, fs.files d = some c →
       (Operation.move s d).Rollback fs =
         .ok { fs with files := setFile (setFile fs.files d none) s (some c) }) ∧
    (s ∉ fs.locked → d ∉ fs.locked → fs.files d = none →
       (Operation.move s d).Rollback fs = .ok fs) ∧
    (s ∈ fs.locked ∨ d ∈ fs.locked →
       ∃ msg, (Operation.move s d).Rollback fs = .error msg) := by
  refine ⟨?_, ?_, ?_, ?_, ?_, ?_⟩
  · intro hl hp
    obtain ⟨c, hc⟩ := Option.isSome_iff_exists.mp hp
    simp [Operation.Rollback, osRemove, hl, hc]
  · intro hl hp
    simp [Operation.Rollback, osRemove, hl, hp]
  · intro hl
    exact ⟨"failed to remove copied file " ++ d,
      by simp [Operation.Rollback, osRemove, hl]⟩
  · intro hs hd c hc
    simp [Operation.Rollback, osRename, hs, hd, hc]
  · intro hs hd hp
    simp [Operation.Rollback, osRename, hs, hd, hp]
  · intro h
    refine ⟨"failed to restore moved file " ++ d ++ " to " ++ s, ?_⟩
    have : d ∈ fs.locked ∨ s ∈ fs.locked := h.symm
    simp [Operation.Rollback, osRename, this]

/-- C6 witness: a copy rollback with a present destination, an absent
destination, and a locked destination, at concrete states. -/
theorem operation_rollback_tolerant_witness :
    ((Operation.copy "a" "b").Rollback ⟨fun p => if p = "b" then some "x" else none, []⟩ =
       .ok { files := setFile (fun p => if p = "b" then some "x" else none) "b" none,
             locked := [] }) ∧
    ((Operation.copy "a" "b").Rollback ⟨fun _ => none, []⟩ = .ok ⟨fun _ => none, []⟩) ∧
    (∃ msg, (Operation.copy "a" "b").Rollback ⟨fun _ => none, ["b"]⟩ = .error msg) :=
  ⟨(operation_rollback_tolerant ⟨fun p => if p = "b" then some "x" else none, []⟩ "a" "b").1
      (by simp) (by simp),
   (operation_rollback_tolerant ⟨fun _ => none, []⟩ "a" "b").2.1 (by simp) rfl,
   (operation_rollback_tolerant ⟨fun _ => none, ["b"]⟩ "a" "b").2.2.1 (by simp)⟩

/-- A destination that already exists makes `ValidateCopyArgs` fail. -/
theorem validateCopyArgs_dst_exists (fs : FsState) (s d : String)
    (h : (fs.files d).isSome) : (ValidateCopyArgs fs s d).isSome := by
  unfold ValidateCopyArgs
  split_ifs <;> simp_all

/-- `Validate` returns the planning error of the first operation failing
its per-operation check (`find?` order), with the failing operation and
its underlying reason. -/
theorem validate_eq_find (fs : FsState) (ow : Bool) (ops : List Operation) :
    Validate fs ow ops =
      (ops.find? fun op => (opCheck fs ow op).isSome).map
        (fun op => ⟨"planning", some op, (opCheck fs ow op).getD ""⟩) := by
  induction ops with
  | nil => rfl
  | cons op rest ih =>
    unfold Validate
    rcases h : opCheck fs ow op with _ | e
    · rw [List.find?_cons_of_neg _ (by simp [h])]
      exact ih
    · rw [List.find?_cons_of_pos _ (by simp [h])]
      simp [h]

/-- C4: `Validate` is fail-fast over the planned operations in insertion
order: it returns the planning-phase error of the first operation whose
check fails (every earlier operation passes), identifying that operation
and the underlying reason, and returns success exactly when every
operation passes.  In the model `Validate` consumes no transaction state
and returns only the verdict, so it mutates nothing. -/
theorem validate_fail_fast (fs : FsState) (ow : Bool) (ops : List Operation) :
    (Validate fs ow ops =
      (ops.find? fun op => (opCheck fs ow op).isSome).map
        (fun op => ⟨"planning", some op, (opCheck fs ow op).getD ""⟩)) ∧
    (Validate fs ow ops = none ↔ ∀ op ∈ ops, opCheck fs ow op = none) ∧
    (∀ e, Validate fs ow ops = some e →
       e.phase = "planning" ∧
       ∃ op ∈ ops, e.operation = some op ∧ opCheck fs ow op = some e.err) := by
  refine ⟨validate_eq_find fs ow ops, ?_, ?_⟩
  · rw [validate_eq_find fs ow ops]
    constructor
    · intro h op hop
      rcases hf : ops.find? fun op => (opCheck fs ow op).isSome with _ | o
      · have := List.find?_eq_none.mp hf op hop
        simpa using this
      · simp [hf] at h
    · intro h
      rcases hf : ops.find? fun op => (opCheck fs ow op).isSome with _ | o
      · simp [hf]
      · have hmem := List.mem_of_find?_eq_some hf
        have hsat := List.find?_some hf
        rw [h o hmem] at hsat
        simp at hsat
  · intro e he
    rw [validate_eq_find fs ow ops] at he
    rcases hf : ops.find? fun op => (opCheck fs ow op).isSome with _ | o
    · simp [hf] at he
    · simp [hf] at he
      have hmem := List.mem_of_find?_eq_some hf
      have hsat := List.find?_some hf
      simp at hsat
      obtain ⟨msg, hmsg⟩ := Option.isSome_iff_exists.mp hsat
      subst he
      exact ⟨rfl, o, hmem, rfl, by simp [hmsg]⟩

/-- C4 witness: validating a two-operation plan whose second operation has
an empty destination reports the second operation with its reason. -/
theorem validate_fail_fast_witness :
    Validate ⟨fun p => if p = "a" then some "x" else none, []⟩ true
        [Operation.copy "a" "b", Operation.copy "a" ""] = some
        ⟨"planning", some (Operation.copy "a" ""),
         "source and destination must be provided"⟩ ∧
    (⟨"planning", some (Operation.copy "a" ""),
      "source and destination must be provided"⟩ : TransactionError).phase =
      "planning" := by
  refine ⟨?_, ?_⟩
  · rw [(validate_fail_fast ⟨fun p => if p = "a" then some "x" else none, []⟩ true
      [Operation.copy "a" "b", Operation.copy "a" ""]).1]
    rfl
  · exact ((validate_fail_fast ⟨fun p => if p = "a" then some "x" else none, []⟩ true
      [Operation.copy "a" "b", Operation.copy "a" ""]).2.2 _ (by
        rw [(validate_fail_fast ⟨fun p => if p = "a" then some "x" else none, []⟩ true
          [Operation.copy "a" "b", Operation.copy "a" ""]).1]
        rfl)).1

/-- C5: a plan containing an operation whose destination already exists
fails `Validate` with overwrite disabled, while with overwrite enabled
`Validate` succeeds as soon as every operation has non-empty source and
destination strings and a source naming an existing regular file —
destination absence is not required. -/
theorem validate_overwrite_semantics (fs : FsState) (ops : List Operation) :
    ((∃ op ∈ ops, (fs.files op.dst).isSome) → (Validate fs false ops).isSome) ∧
    ((∀ op ∈ ops, op.src ≠ "" ∧ op.dst ≠ "" ∧ IsFile fs op.src) →
       Validate fs true ops = none) := by
  constructor
  · rintro ⟨op, hmem, hdst⟩
    induction ops with
    | nil => cases hmem
    | cons o rest ih =>
      unfold Validate
      rcases h : opCheck fs false o with _ | e
      · rcases List.mem_cons.mp hmem with rfl | hmem'
        · exact absurd h (by
            simp only [opCheck, Bool.false_eq_true, if_false]
            intro hc
            have := validateCopyArgs_dst_exists fs op.src op.dst hdst
            simp [hc] at this)
        · exact ih hmem'
      · simp
  · intro h
    induction ops with
    | nil => rfl
    | cons o rest ih =>
      obtain ⟨h1, h2, h3⟩ := h o (List.mem_cons_self o rest)
      unfold Validate
      rw [show opCheck fs true o = none by simp [opCheck, h1, h2, h3]]
      exact ih fun op hop => h op (List.mem_cons_of_mem o hop)

/-- C5 witness: a single-copy plan whose destination exists is rejected
without overwrite and accepted with overwrite, at a concrete state. -/
theorem validate_overwrite_semantics_witness :
    (Validate ⟨fun p => if p = "a" then some "x"
                        else if p = "b" then some "y" else none, []⟩ false
        [Operation.copy "a" "b"]).isSome ∧
    Validate ⟨fun p => if p = "a" then some "x"
                       else if p = "b" then some "y" else none, []⟩ true
        [Operation.copy "a" "b"] = none :=
  ⟨(validate_overwrite_semantics
      ⟨fun p => if p = "a" then some "x"
                else if p = "b" then some "y" else none, []⟩
      [Operation.copy "a" "b"]).1
      ⟨Operation.copy "a" "b", by simp, by simp [Operation.dst]⟩,
   (validate_overwrite_semantics
      ⟨fun p => if p = "a" then some "x"
                else if p = "b" then some "y" else none, []⟩
      [Operation.copy "a" "b"]).2
      (by intro op hop; simp at hop; subst hop
          refine ⟨by simp [Operation.src], by simp [Operation.dst], by simp [IsFile, Operation.src]⟩)⟩

/-- Sequential rollback success: every operation's `Rollback` succeeds in
turn, threading the filesystem. -/
def rollbackAllOk (fs : FsState) : List Operation → Prop
  | [] => True
  | op :: rest =>
    match op.Rollback fs with
    | .ok fs' => rollbackAllOk fs' rest
    | .error _ => False

/-- The attempt log of `rollbackSteps` is exactly its input list: every
operation's rollback is attempted, in order, regardless of failures. -/
theorem rollbackSteps_log (l : List Operation) : ∀ fs : FsState,
    (rollbackSteps fs l).2.2 = l := by
  induction l with
  | nil => intro fs; rfl
  | cons op rest ih =>
    intro fs
    unfold rollbackSteps
    rcases h : op.Rollback fs with fs' | e <;> simp [h, ih]

/-- `rollbackSteps` collects no errors exactly when every step succeeds. -/
theorem rollbackSteps_errs_nil (l : List Operation) : ∀ fs : FsState,
    (rollbackSteps fs l).2.1 = [] ↔ rollbackAllOk fs l := by
  induction l with
  | nil => intro fs; simp [rollbackSteps, rollbackAllOk]
  | cons op rest ih =>
    intro fs
    unfold rollbackSteps rollbackAllOk
    rcases h : op.Rollback fs with fs' | e <;> simp [h, ih]

/-- C2: `FileTransaction.Rollback` attempts the completed operations in
exact reverse completion order (the attempt log is `completed.reverse`,
so for completed `[A, B]` it invokes `B`'s rollback before `A`'s), does
not short-circuit (every completed operation appears in the log even
when earlier steps fail), clears `completed` regardless of outcome, and
returns a rollback-phase `TransactionError` aggregating the collected
failures exactly when at least one rollback step failed. -/
theorem txRollback_spec (st : TxState) :
    (txRollback st).2.2 = st.completed.reverse ∧
    (txRollback st).2.1.completed = [] ∧
    ((txRollback st).1 = none ↔ rollbackAllOk st.fs st.completed.reverse) ∧
    (∀ e, (txRollback st).1 = some e →
       e.phase = "rollback" ∧ e.operation = none ∧
       e.err = aggregateMsg (rollbackSteps st.fs st.completed.reverse).2.1) := by
  unfold txRollback
  refine ⟨by simp [rollbackSteps_log], by simp, ?_, ?_⟩
  · rcases h : (rollbackSteps st.fs st.completed.reverse).2.1 with _ | ⟨e, rest⟩
    · simp [h, ← rollbackSteps_errs_nil, h]
    · rw [← rollbackSteps_errs_nil]
      simp [h]
  · intro e he
    rcases h : (rollbackSteps st.fs st.completed.reverse).2.1 with _ | ⟨e', rest⟩ <;>
      simp [h] at he
    simp [← he, h]

/-- C2 witness: a two-operation completed list with a failing (locked)
rollback step: the log is the reverse of the completed list (second
operation first), `completed` is cleared, and the returned error has the
rollback phase. -/
theorem txRollback_spec_witness :
    (txRollback ⟨⟨fun p => if p = "b" then some "x" else none, ["b"]⟩,
        [Operation.copy "a" "b", Operation.copy "aa" "bb"]⟩).2.2 =
      [Operation.copy "aa" "bb", Operation.copy "a" "b"] ∧
    (txRollback ⟨⟨fun p => if p = "b" then some "x" else none, ["b"]⟩,
        [Operation.copy "a" "b", Operation.copy "aa" "bb"]⟩).2.1.completed = [] ∧
    (⟨"rollback", none,
      aggregateMsg ["failed to rollback copy a->b: failed to remove copied file b"]⟩ :
        TransactionError).phase = "rollback" :=
  ⟨(txRollback_spec ⟨⟨fun p => if p = "b" then some "x" else none, ["b"]⟩,
      [Operation.copy "a" "b", Operation.copy "aa" "bb"]⟩).1,
   (txRollback_spec ⟨⟨fun p => if p = "b" then some "x" else none, ["b"]⟩,
      [Operation.copy "a" "b", Operation.copy "aa" "bb"]⟩).2.1,
   ((txRollback_spec ⟨⟨fun p => if p = "b" then some "x" else none, ["b"]⟩,
      [Operation.copy "a" "b", Operation.copy "aa" "bb"]⟩).2.2.2
      ⟨"rollback", none,
       aggregateMsg ["failed to rollback copy a->b: failed to remove copied file b"]⟩
      (by rfl)).1⟩

/-- The reporter events the loop emits when the remaining operations all
succeed, starting after `idx` completed operations. -/
def successTrace (idx : Nat) : List Operation → List ProgressEvent
  | [] => [.finish]
  | op :: rest =>
    .setMessage (op.typeString ++ " " ++ op.src) :: .setCurrent (idx + 1) ::
      successTrace (idx + 1) rest

/-- The reporter events the loop emits when, after the operations in
`pre` succeed, `failOp`'s execute fails: messages and increments for
`pre`, then only the failing operation's message. -/
def failTrace (idx : Nat) : List Operation → Operation → List ProgressEvent
  | [], failOp => [.setMessage (failOp.typeString ++ " " ++ failOp.src)]
  | op :: rest, failOp =>
    .setMessage (op.typeString ++ " " ++ op.src) :: .setCurrent (idx + 1) ::
      failTrace (idx + 1) rest failOp

/-- How `ExecuteWithProgress` builds the returned error message from the
original execution error and the outcome of the automatic rollback. -/
def combineErr (e : String) : Option TransactionError → String
  | none => e
  | some re => "execution failed: " ++ e ++ "; rollback also failed: " ++ re.err

/-- The loop of `ExecuteWithProgress`, characterised by the sequential
outcome `runOps` of the remaining operations: on success it returns no
error, appends the remaining operations to `completed` and emits the
success trace; on the first failure it rolls back the completed
operations (original prefix plus the operations that succeeded in this
run) in the failing filesystem state, returns an execution-phase error
naming the failing operation and combining the rollback failure when
present, and emits the failure trace. -/
theorem execOps_spec (rest : List Operation) : ∀ (fs : FsState)
    (P : List Operation) (idx : Nat),
    (∀ fsN, runOps fs rest = .success fsN →
       execOps fs P idx rest = (none, ⟨fsN, P ++ rest⟩, successTrace idx rest)) ∧
    (∀ pre op e ff, runOps fs rest = .failure pre op e ff →
       execOps fs P idx rest =
         (some ⟨"execution", some op, combineErr e ((txRollback ⟨ff, P ++ pre⟩).1)⟩,
          (txRollback ⟨ff, P ++ pre⟩).2.1,
          failTrace idx pre op)) := by
  induction rest with
  | nil =>
    intro fs P idx
    constructor
    · intro fsN h
      cases h
      simp [execOps, successTrace]
    · intro pre op e ff h
      cases h
  | cons op rest' ih =>
    intro fs P idx
    constructor
    · intro fsN h
      unfold runOps at h
      unfold execOps
      cases hx : op.Execute fs with
      | error e0 =>
        rw [hx] at h
        simp at h
      | ok fs1 =>
        rw [hx] at h
        simp at h
        cases hr : runOps fs1 rest' with
        | success fsN' =>
          rw [hr] at h
          simp at h
          subst h
          have := (ih fs1 (P ++ [op]) (idx + 1)).1 fsN' hr
          simp [this, successTrace, List.append_assoc]
        | failure pre' o' e' ff' =>
          rw [hr] at h
          simp at h
    · intro pre op0 e ff h
      unfold runOps at h
      unfold execOps
      cases hx : op.Execute fs with
      | error e0 =>
        rw [hx] at h
        simp at h
        obtain ⟨h1, h2, h3, h4⟩ := h
        subst h1; subst h2; subst h3; subst h4
        rcases h5 : txRollback ⟨fs, P⟩ with ⟨rb, stx, log⟩
        simp only [h5]
        cases rb <;> simp [combineErr, h5, failTrace]
      | ok fs1 =>
        rw [hx] at h
        simp at h
        cases hr : runOps fs1 rest' with
        | success fsN' =>
          rw [hr] at h
          simp at h
        | failure pre' o' e' ff' =>
          rw [hr] at h
          simp at h
          obtain ⟨h1, h2, h3, h4⟩ := h
          subst h1; subst h2; subst h3; subst h4
          have := (ih fs1 (P ++ [op]) (idx + 1)).2 pre' o' e' ff' hr
          simp only [List.append_assoc, List.singleton_append] at this
          simp [this, failTrace]

/-- The values the engine passes to `SetCurrent`, in call order. -/
def currents (evs : List ProgressEvent) : List Nat :=
  evs.filterMap fun ev =>
    match ev with
    | .setCurrent n => some n
    | _ => none

/-- The number of `Finish` calls in a trace. -/
def countFinish (evs : List ProgressEvent) : Nat :=
  (evs.filter fun ev => ev = ProgressEvent.finish).length

/-- The `SetCurrent` values of a success trace are `idx+1, …, idx+n`. -/
theorem currents_successTrace (l : List Operation) : ∀ idx : Nat,
    currents (successTrace idx l) = List.range' (idx + 1) l.length := by
  induction l with
  | nil => intro idx; rfl
  | cons op rest ih =>
    intro idx
    simp [successTrace, currents, List.range'_succ] at *
    exact ih (idx + 1)

/-- A success trace calls `Finish` exactly once, as its last event. -/
theorem finish_successTrace (l : List Operation) : ∀ idx : Nat,
    countFinish (successTrace idx l) = 1 ∧
    (successTrace idx l).getLast? = some ProgressEvent.finish := by
  induction l with
  | nil => intro idx; constructor <;> rfl
  | cons op rest ih =>
    intro idx
    obtain ⟨ih1, ih2⟩ := ih (idx + 1)
    constructor
    · simpa [successTrace, countFinish] using ih1
    · have hne : successTrace (idx + 1) rest ≠ [] := by
        cases rest <;> simp [successTrace]
      simp [successTrace, List.getLast?_cons_cons]
      cases hs : successTrace (idx + 1) rest with
      | nil => exact absurd hs hne
      | cons a t =>
        rw [hs] at ih2
        simpa using ih2

/-- A failure trace never calls `Finish` or `SetError`. -/
theorem failTrace_no_finish (pre : List Operation) : ∀ (idx : Nat) (op : Operation),
    ProgressEvent.finish ∉ failTrace idx pre op ∧
    ProgressEvent.setError ∉ failTrace idx pre op := by
  induction pre with
  | nil => intro idx op; simp [failTrace]
  | cons o rest ih =>
    intro idx op
    obtain ⟨ih1, ih2⟩ := ih (idx + 1) op
    simp [failTrace, ih1, ih2]

/-- C7: for a transaction whose operations all execute successfully,
`ExecuteWithProgress` returns success and its reporter trace is
`SetTotal N`, then `SetCurrent` with exactly the values `0, 1, …, N` in
strictly increasing order, with `Finish` called exactly once, as the very
last event; the empty transaction still reports total `0`, current `0`
and a single `Finish`. -/
theorem execute_progress_monotone (ops : List Operation) (fs0 fsN : FsState)
    (h : runOps fs0 ops = .success fsN) :
    (ExecuteWithProgress ops fs0).1 = none ∧
    (ExecuteWithProgress ops fs0).2.2 =
      ProgressEvent.setTotal ops.length :: ProgressEvent.setCurrent 0 ::
        successTrace 0 ops ∧
    currents (ExecuteWithProgress ops fs0).2.2 = List.range (ops.length + 1) ∧
    countFinish (ExecuteWithProgress ops fs0).2.2 = 1 ∧
    (ExecuteWithProgress ops fs0).2.2.getLast? = some ProgressEvent.finish ∧
    (ops = [] → (ExecuteWithProgress ops fs0).2.2 =
      [ProgressEvent.setTotal 0, ProgressEvent.setCurrent 0, ProgressEvent.finish]) := by
  have hspec := (execOps_spec ops fs0 [] 0).1 fsN h
  have htr : (ExecuteWithProgress ops fs0).2.2 =
      ProgressEvent.setTotal ops.length :: ProgressEvent.setCurrent 0 ::
        successTrace 0 ops := by
    simp [ExecuteWithProgress, hspec]
  have hone := finish_successTrace ops 0
  refine ⟨by simp [ExecuteWithProgress, hspec], htr, ?_, ?_, ?_, ?_⟩
  · rw [htr]
    have h2 := currents_successTrace ops 0
    simp only [currents, List.filterMap_cons] at h2 ⊢
    rw [h2]
    simp [List.range_eq_range', List.range'_succ]
  · rw [htr]
    simpa [countFinish] using hone.1
  · rw [htr]
    have hne : successTrace 0 ops ≠ [] := by cases ops <;> simp [successTrace]
    cases hs : successTrace 0 ops with
    | nil => exact absurd hs hne
    | cons a t =>
      have := hone.2
      rw [hs] at this
      simpa [List.getLast?_cons_cons] using this
  · intro hops
    subst hops
    rw [htr]
    rfl

/-- C7 witness: a one-copy transaction that succeeds reports
`SetTotal 1`, currents `0, 1` and a final single `Finish`. -/
theorem execute_progress_monotone_witness :
    (ExecuteWithProgress [Operation.copy "a" "b"]
        ⟨fun p => if p = "a" then some "x" else none, []⟩).1 = none ∧
    currents (ExecuteWithProgress [Operation.copy "a" "b"]
        ⟨fun p => if p = "a" then some "x" else none, []⟩).2.2 = [0, 1] ∧
    countFinish (ExecuteWithProgress [Operation.copy "a" "b"]
        ⟨fun p => if p = "a" then some "x" else none, []⟩).2.2 = 1 :=
  have h := execute_progress_monotone [Operation.copy "a" "b"]
    ⟨fun p => if p = "a" then some "x" else none, []⟩
    ⟨setFile (fun p => if p = "a" then some "x" else none) "b" (some "x"), []⟩ rfl
  ⟨h.1, by rw [h.2.2.1]; rfl, h.2.2.2.1⟩

/-- C3: when some operation's execute fails during `ExecuteWithProgress`,
the engine immediately rolls back (the returned transaction state is the
rollback's), and returns an execution-phase `TransactionError` carrying
the failing operation — with the original error when the rollback
succeeded, and a message combining the execution error and the rollback
error when the rollback also failed; in both cases the reporter's
`Finish` is never called and the engine never calls `SetError`. -/
theorem execute_failure_error_shape (ops : List Operation) (fs0 : FsState)
    (pre : List Operation) (op : Operation) (e : String) (ff : FsState)
    (h : runOps fs0 ops = .failure pre op e ff) :
    (ExecuteWithProgress ops fs0).2.1 = (txRollback ⟨ff, pre⟩).2.1 ∧
    ((txRollback ⟨ff, pre⟩).1 = none →
       (ExecuteWithProgress ops fs0).1 = some ⟨"execution", some op, e⟩) ∧
    (∀ re, (txRollback ⟨ff, pre⟩).1 = some re →
       (ExecuteWithProgress ops fs0).1 = some ⟨"execution", some op,
         "execution failed: " ++ e ++ "; rollback also failed: " ++ re.err⟩) ∧
    ProgressEvent.finish ∉ (ExecuteWithProgress ops fs0).2.2 ∧
    ProgressEvent.setError ∉ (ExecuteWithProgress ops fs0).2.2 := by
  have hspec := (execOps_spec ops fs0 [] 0).2 pre op e ff h
  rw [List.nil_append] at hspec
  have hnf := failTrace_no_finish pre 0 op
  refine ⟨by simp [ExecuteWithProgress, hspec], ?_, ?_, ?_, ?_⟩
  · intro hrb
    simp [ExecuteWithProgress, hspec, combineErr, hrb]
  · intro re hrb
    simp [ExecuteWithProgress, hspec, combineErr, hrb]
  · simp [ExecuteWithProgress, hspec, hnf.1]
  · simp [ExecuteWithProgress, hspec, hnf.2]

/-- C3 witness: a transaction whose single operation fails (empty source)
returns the execution-phase error with the original message, and neither
`Finish` nor `SetError` appears in the trace. -/
theorem execute_failure_error_shape_witness :
    (ExecuteWithProgress [Operation.copy "" ""] ⟨fun _ => none, []⟩).1 =
      some ⟨"execution", some (Operation.copy "" ""),
            "source and destination must be provided"⟩ ∧
    ProgressEvent.finish ∉
      (ExecuteWithProgress [Operation.copy "" ""] ⟨fun _ => none, []⟩).2.2 :=
  have h := execute_failure_error_shape [Operation.copy "" ""] ⟨fun _ => none, []⟩
    [] (Operation.copy "" "") "source and destination must be provided"
    ⟨fun _ => none, []⟩ rfl
  ⟨h.2.1 rfl, h.2.2.2.1⟩

/-- All source and destination paths a plan mentions, in plan order. -/
def pathList : List Operation → List String
  | [] => []
  | op :: rest => op.src :: op.dst :: pathList rest

/-- A plan whose mentioned paths are pairwise distinct (each operation
works on its own files). -/
def nodupPaths (ops : List Operation) : Prop :=
  (pathList ops).Nodup

instance (ops : List Operation) : Decidable (nodupPaths ops) := by
  unfold nodupPaths; infer_instance

/-- Membership in a plan puts both paths in its path list. -/
theorem mem_pathList {op : Operation} {ops : List Operation} (h : op ∈ ops) :
    op.src ∈ pathList ops ∧ op.dst ∈ pathList ops := by
  induction ops with
  | nil => cases h
  | cons o rest ih =>
    rcases List.mem_cons.mp h with rfl | h'
    · simp [pathList]
    · have := ih h'
      simp [pathList, this.1, this.2]

/-- `pathList` distributes over append. -/
theorem pathList_append (l1 l2 : List Operation) :
    pathList (l1 ++ l2) = pathList l1 ++ pathList l2 := by
  induction l1 with
  | nil => rfl
  | cons o rest ih => simp [pathList, ih]

/-- A successful `Execute` leaves the locked set unchanged and touches the
file map only at the operation's own source and destination. -/
theorem execute_local (op : Operation) (fs fs' : FsState)
    (hx : op.Execute fs = .ok fs') :
    fs'.locked = fs.locked ∧
    ∀ p, p ≠ op.src → p ≠ op.dst → fs'.files p = fs.files p := by
  cases op with
  | copy s d =>
    simp only [Operation.Execute, Files.Copy] at hx
    rcases hv : ValidateCopyArgs fs s d with _ | msg
    · rw [hv] at hx
      rcases hc : fs.files s with _ | c
      · rw [hc] at hx; simp at hx
      · rw [hc] at hx
        by_cases hl : d ∈ fs.locked
        · simp [hl] at hx
        · simp [hl] at hx
          subst hx
          refine ⟨rfl, fun p hps hpd => ?_⟩
          simp only [Operation.dst] at hpd
          simp [setFile, hpd]
    · rw [hv] at hx; simp at hx
  | move s d =>
    simp only [Operation.Execute] at hx
    rcases hrm : osRename fs s d with e0 | fs1
    · rw [hrm] at hx; simp at hx
    · rw [hrm] at hx
      simp at hx
      subst hx
      unfold osRename at hrm
      by_cases hl : s ∈ fs.locked ∨ d ∈ fs.locked
      · simp [hl] at hrm
      · rw [if_neg hl] at hrm
        rcases hc : fs.files s with _ | c
        · rw [hc] at hrm; simp at hrm
        · rw [hc] at hrm
          simp at hrm
          subst hrm
          refine ⟨rfl, fun p hps hpd => ?_⟩
          simp only [Operation.src] at hps
          simp only [Operation.dst] at hpd
          simp [setFile, hps, hpd]

/-- A successful `Execute` followed by the operation's `Rollback` restores
the filesystem exactly, provided the destination was fresh (absent before
the execute). -/
theorem rollback_execute (op : Operation) (fs fs' : FsState)
    (hx : op.Execute fs = .ok fs')
    (hfresh : fs.files op.dst = none) :
    op.Rollback fs' = .ok fs := by
  cases op with
  | copy s d =>
    simp only [Operation.Execute, Files.Copy] at hx
    rcases hv : ValidateCopyArgs fs s d with _ | msg
    · rw [hv] at hx
      rcases hc : fs.files s with _ | c
      · rw [hc] at hx; simp at hx
      · rw [hc] at hx
        by_cases hl : d ∈ fs.locked
        · simp [hl] at hx
        · simp [hl] at hx
          subst hx
          simp only [Operation.dst] at hfresh
          have hrem : osRemove ⟨setFile fs.files d (some c), fs.locked⟩ d =
              .ok ⟨setFile (setFile fs.files d (some c)) d none, fs.locked⟩ := by
            simp [osRemove, hl, setFile]
          have hfun : setFile (setFile fs.files d (some c)) d none = fs.files := by
            funext q
            by_cases hq : q = d
            · subst hq; simp [setFile, hfresh]
            · simp [setFile, hq]
          simp only [Operation.Rollback, hrem]
          rw [show (⟨setFile (setFile fs.files d (some c)) d none,
              fs.locked⟩ : FsState) = fs by rw [hfun]]
    · rw [hv] at hx; simp at hx
  | move s d =>
    simp only [Operation.Execute] at hx
    rcases hrm : osRename fs s d with e0 | fs1
    · rw [hrm] at hx; simp at hx
    · rw [hrm] at hx
      simp at hx
      subst hx
      unfold osRename at hrm
      by_cases hl : s ∈ fs.locked ∨ d ∈ fs.locked
      · simp [hl] at hrm
      · rw [if_neg hl] at hrm
        rcases hc : fs.files s with _ | c
        · rw [hc] at hrm; simp at hrm
        · rw [hc] at hrm
          simp at hrm
          subst hrm
          simp only [Operation.dst] at hfresh
          have hren : osRename
              ⟨setFile (setFile fs.files s none) d (some c), fs.locked⟩ d s =
              .ok ⟨setFile (setFile
                (setFile (setFile fs.files s none) d (some c)) d none) s (some c),
                fs.locked⟩ := by
            unfold osRename
            rw [if_neg (by tauto)]
            simp [setFile]
          have hfun : setFile (setFile
              (setFile (setFile fs.files s none) d (some c)) d none) s (some c) =
              fs.files := by
            funext q
            by_cases hq : q = s
            · subst hq; simp [setFile, hc]
            · by_cases hq' : q = d
              · subst hq'; simp [setFile, hq, hfresh]
              · simp [setFile, hq, hq']
          simp only [Operation.Rollback, hren]
          rw [show (⟨setFile (setFile
              (setFile (setFile fs.files s none) d (some c)) d none) s (some c),
              fs.locked⟩ : FsState) = fs by rw [hfun]]

/-- `rollbackSteps` over an append runs the first part, then the second
from the resulting state, concatenating errors and logs. -/
theorem rollbackSteps_append (l1 l2 : List Operation) : ∀ fs : FsState,
    rollbackSteps fs (l1 ++ l2) =
      ((rollbackSteps (rollbackSteps fs l1).1 l2).1,
       (rollbackSteps fs l1).2.1 ++ (rollbackSteps (rollbackSteps fs l1).1 l2).2.1,
       (rollbackSteps fs l1).2.2 ++ (rollbackSteps (rollbackSteps fs l1).1 l2).2.2) := by
  induction l1 with
  | nil => intro fs; simp [rollbackSteps]
  | cons op rest ih =>
    intro fs
    rcases h : op.Rollback fs with e | fs1 <;>
      simp [rollbackSteps, h, ih]

/-- Rolling back, in reverse order, a list of operations that executed
successfully from `fs` (with fresh, pairwise-distinct paths) produces no
errors and restores `fs` exactly, attempting every operation. -/
theorem rollbackSteps_undo (pre : List Operation) : ∀ fs ff : FsState,
    runOps fs pre = .success ff →
    (∀ op ∈ pre, fs.files op.dst = none) →
    nodupPaths pre →
    rollbackSteps ff pre.reverse = (fs, [], pre.reverse) := by
  induction pre with
  | nil =>
    intro fs ff h _ _
    cases h
    rfl
  | cons op rest ih =>
    intro fs ff h hfresh hnd
    unfold runOps at h
    cases hx : op.Execute fs with
    | error e0 =>
      rw [hx] at h; simp at h
    | ok fs1 =>
      rw [hx] at h
      simp at h
      cases hr : runOps fs1 rest with
      | failure pre' o' e' ff' =>
        rw [hr] at h; simp at h
      | success fsN' =>
        rw [hr] at h
        simp at h
        subst h
        have hloc := execute_local op fs fs1 hx
        have hnd' : nodupPaths rest := by
          have := hnd
          unfold nodupPaths pathList at this
          exact ((List.nodup_cons.mp ((List.nodup_cons.mp this).2)).2)
        have hsrc_notin : op.src ∉ pathList rest := by
          have := hnd
          unfold nodupPaths pathList at this
          have h1 := (List.nodup_cons.mp this).1
          intro hmem
          exact h1 (List.mem_cons_of_mem _ hmem)
        have hdst_notin : op.dst ∉ pathList rest := by
          have := hnd
          unfold nodupPaths pathList at this
          exact (List.nodup_cons.mp ((List.nodup_cons.mp this).2)).1
        have hfresh' : ∀ o ∈ rest, fs1.files o.dst = none := by
          intro o ho
          have hmem := mem_pathList ho
          have hne1 : o.dst ≠ op.src := fun hh => hsrc_notin (hh ▸ hmem.2)
          have hne2 : o.dst ≠ op.dst := fun hh => hdst_notin (hh ▸ hmem.2)
          rw [hloc.2 o.dst hne1 hne2]
          exact hfresh o (List.mem_cons_of_mem _ ho)
        have hstep := ih fs1 fsN' hr hfresh' hnd'
        have hrb : op.Rollback fs1 = .ok fs :=
          rollback_execute op fs fs1 hx (hfresh op (List.mem_cons_self op rest))
        rw [List.reverse_cons, rollbackSteps_append, hstep]
        simp [rollbackSteps, hrb]

/-- A sequential failure outcome splits the plan: the successful prefix,
then the failing operation, then an unexecuted suffix. -/
theorem runOps_failure_split (l : List Operation) : ∀ (fs : FsState)
    (pre : List Operation) (op : Operation) (e : String) (ff : FsState),
    runOps fs l = .failure pre op e ff →
    (∃ suf, l = pre ++ op :: suf) ∧ runOps fs pre = .success ff ∧
      op.Execute ff = .error e := by
  induction l with
  | nil =>
    intro fs pre op e ff h
    cases h
  | cons o rest ih =>
    intro fs pre op e ff h
    unfold runOps at h
    cases hx : o.Execute fs with
    | error e0 =>
      rw [hx] at h
      simp at h
      obtain ⟨h1, h2, h3, h4⟩ := h
      subst h1; subst h2; subst h3; subst h4
      exact ⟨⟨rest, rfl⟩, rfl, hx⟩
    | ok fs1 =>
      rw [hx] at h
      simp at h
      cases hr : runOps fs1 rest with
      | success fsN' =>
        rw [hr] at h; simp at h
      | failure pre' o' e' ff' =>
        rw [hr] at h
        simp at h
        obtain ⟨h1, h2, h3, h4⟩ := h
        subst h1; subst h2; subst h3; subst h4
        obtain ⟨⟨suf, hsuf⟩, hpre, hfail⟩ := ih fs1 pre' o' e' ff' hr
        refine ⟨⟨suf, by simp [hsuf]⟩, ?_, hfail⟩
        unfold runOps
        rw [hx]
        simp [hpre]

/-- C1: `Execute` is all-or-nothing.  For a plan over pairwise-distinct
paths with fresh destinations: when every operation executes
successfully, `Execute` returns success and `Completed()` is the planned
operations in insertion order (with the filesystem at the sequential
result); when some operation's execute fails, `Execute` returns an
error, the filesystem is restored exactly to its initial state — so every
copy destination is absent again and every move destination has been
renamed back to its source — and `Completed()` is empty. -/
theorem execute_atomic (ops : List Operation) (fs0 : FsState)
    (hnd : nodupPaths ops)
    (hfresh : ∀ op ∈ ops, fs0.files op.dst = none) :
    (∀ fsN, runOps fs0 ops = .success fsN →
       (ExecuteWithProgress ops fs0).1 = none ∧
       (ExecuteWithProgress ops fs0).2.1.completed = ops ∧
       (ExecuteWithProgress ops fs0).2.1.fs = fsN) ∧
    (∀ pre op e ff, runOps fs0 ops = .failure pre op e ff →
       (ExecuteWithProgress ops fs0).1.isSome = true ∧
       (ExecuteWithProgress ops fs0).2.1.completed = [] ∧
       (ExecuteWithProgress ops fs0).2.1.fs = fs0 ∧
       ∀ o ∈ ops, (ExecuteWithProgress ops fs0).2.1.fs.files o.dst = none) := by
  constructor
  · intro fsN h
    have hspec := (execOps_spec ops fs0 [] 0).1 fsN h
    simp [ExecuteWithProgress, hspec]
  · intro pre op e ff h
    obtain ⟨⟨suf, hsuf⟩, hpre, hfail⟩ := runOps_failure_split ops fs0 pre op e ff h
    have hmem_pre : ∀ o ∈ pre, o ∈ ops := by
      intro o ho
      rw [hsuf]
      exact List.mem_append_left _ ho
    have hfresh' : ∀ o ∈ pre, fs0.files o.dst = none :=
      fun o ho => hfresh o (hmem_pre o ho)
    have hnd' : nodupPaths pre := by
      have hfull : nodupPaths (pre ++ op :: suf) := by rw [← hsuf]; exact hnd
      unfold nodupPaths at hfull ⊢
      rw [pathList_append] at hfull
      exact hfull.of_append_left
    have hundo := rollbackSteps_undo pre fs0 ff hpre hfresh' hnd'
    have hrb : txRollback ⟨ff, pre⟩ = (none, ⟨fs0, []⟩, pre.reverse) := by
      unfold txRollback
      simp [hundo]
    have hspec := (execOps_spec ops fs0 [] 0).2 pre op e ff h
    rw [List.nil_append, hrb] at hspec
    refine ⟨?_, ?_, ?_, ?_⟩
    · simp [ExecuteWithProgress, hspec]
    · simp [ExecuteWithProgress, hspec]
    · simp [ExecuteWithProgress, hspec]
    · intro o ho
      simp only [ExecuteWithProgress, hspec]
      exact hfresh o ho

/-- C1 witness: a successful one-copy transaction on distinct fresh paths
returns success with `Completed()` equal to the plan. -/
theorem execute_atomic_witness :
    (ExecuteWithProgress [Operation.copy "a" "b"]
        ⟨fun p => if p = "a" then some "x" else none, []⟩).1 = none ∧
    (ExecuteWithProgress [Operation.copy "a" "b"]
        ⟨fun p => if p = "a" then some "x" else none, []⟩).2.1.completed =
      [Operation.copy "a" "b"] :=
  have h := (execute_atomic [Operation.copy "a" "b"]
      ⟨fun p => if p = "a" then some "x" else none, []⟩
      (by decide) (by decide)).1
      ⟨setFile (fun p => if p = "a" then some "x" else none) "b" (some "x"), []⟩ rfl
  ⟨h.1, h.2.1⟩

end Gocamelpack
